import Mathlib

/-!
# CiteCheck citation-verification pipeline: a shallow embedding

This file embeds the core of the CiteCheck citation-verification pipeline
(`app/api/verify/route.ts` and the variant in `app/page.tsx`) in Lean 4 and
proves properties of the embedded definitions.

Modelling conventions:
* JavaScript strings are `List Char` (`Str` below); ASCII semantics are used
  for `toLowerCase`.
* JavaScript numbers used by the scoring code are modelled as exact rationals
  (`ℚ`); IEEE-754 rounding is abstracted away, so `0.8` denotes the rational
  four fifths.
* Asynchronous external lookups are modelled by passing the lookup outcomes
  (`Option` values: `none` = the lookup failed or found nothing) as explicit
  arguments; a caught exception and a `null` result coincide in the model.
* The per-request memo cache of `verifyCitation` is not modelled: it only
  memoises the very function modelled here.
-/

namespace CiteCheck

/-- JavaScript strings, modelled as lists of characters. -/
abbrev Str := List Char

/-- Word character of the JavaScript regex class `\w` (no `u` flag):
ASCII letters, digits and underscore. -/
def isWordChar (c : Char) : Bool :=
  c.isAlphanum || c == '_'

/-- Whitespace of the JavaScript regex class `\s` (the common ASCII part). -/
def isJsSpace (c : Char) : Bool :=
  c == ' ' || c == '\t' || c == '\n' || c == '\r' || c == '\x0b' || c == '\x0c'

/-- One pass of `replace(/[^\w\s]/g, " ")`: every character that is neither a
word character nor whitespace becomes a space. -/
def replaceNonWord (s : Str) : Str :=
  s.map fun c => if isWordChar c || isJsSpace c then c else ' '

/-- Helper for `replace(/\s+/g, " ")`: each maximal whitespace run becomes one
space.  The boolean records whether the previous character was whitespace. -/
def collapseWsAux : Str → Bool → Str
  | [], _ => []
  | c :: rest, prevWs =>
    if isJsSpace c then
      if prevWs then collapseWsAux rest true else ' ' :: collapseWsAux rest true
    else
      c :: collapseWsAux rest false

/-- `String.prototype.trim`: strip leading and trailing whitespace. -/
def trimStr (s : Str) : Str :=
  ((s.dropWhile isJsSpace).reverse.dropWhile isJsSpace).reverse

/-- Embeds `normalize` (route.ts:102): lowercase, punctuation to spaces,
whitespace collapsed, trimmed. -/
def normalize (s : Str) : Str :=
  trimStr (collapseWsAux (replaceNonWord (s.map Char.toLower)) false)

/-! ## Longest common contiguous substring (route.ts:136)

The TypeScript scans a dynamic-programming table row by row (`i` over `s1`,
`j` over `s2`, both 1-based); `dp[j]` holds the length of the common suffix of
`s1[..i]` and `s2[..j]`, and the best match is updated whenever a strictly
larger cell value appears, scanning rows in order and each row left to right.
The embedding computes each row from the previous one (`0 :: prevRow` plays
the role of the in-place `prev` temporary) and then scans it in `j` order. -/

/-- A match: start indices `i` into `s1`, `j` into `s2`, and its length. -/
structure LCSMatch where
  i : Nat
  j : Nat
  len : Nat
deriving DecidableEq, Repr

/-- Row `i` of the dp table from row `i-1`: the cell at column `j` is
`prevRow[j-1] + 1` on a character match and `0` otherwise. -/
def lcsRowVals (c : Char) (s2 : Str) (prevRow : List Nat) : List Nat :=
  (s2.zip (0 :: prevRow)).map fun p => if c = p.1 then p.2 + 1 else 0

/-- Scan one row (at row index `i`, starting column `j`) updating the best
match exactly as the inner loop does: update only on `dp[j] > bestLen`. -/
def lcsScanRow (i : Nat) : Nat → List Nat → LCSMatch → LCSMatch
  | _, [], best => best
  | j, v :: rest, best =>
    lcsScanRow i (j + 1) rest (if best.len < v then ⟨i - v, j - v, v⟩ else best)

/-- The outer loop over the rows of the table. -/
def lcsRows (s2 : Str) : Nat → Str → List Nat → LCSMatch → LCSMatch
  | _, [], _, best => best
  | i, c :: s1rest, prevRow, best =>
    let row := lcsRowVals c s2 prevRow
    lcsRows s2 (i + 1) s1rest row (lcsScanRow i 1 row best)

/-- Embeds `longestCommonSubstring` (route.ts:136): `none` when the strings
share no character. -/
def longestCommonSubstring (s1 s2 : Str) : Option LCSMatch :=
  let best := lcsRows s2 1 s1 (List.replicate s2.length 0) ⟨0, 0, 0⟩
  if 0 < best.len then some best else none

/-! Bounds on the best match, needed both for the termination of the
recursive matched-length sum and for the range of the similarity ratio. -/

/-- Validity of a best-match candidate for strings of lengths `n` and `m`. -/
def MatchOK (n m : Nat) (b : LCSMatch) : Prop :=
  b.len = 0 ∨ (1 ≤ b.len ∧ b.i + b.len ≤ n ∧ b.j + b.len ≤ m)

/-- The recursive sum of matched lengths (`lcsSum` inside
`sequenceMatcherRatio`, route.ts:122), written with an explicit recursion
budget so that it is structurally recursive (the kernel can then evaluate
it).  Every recursive call strictly shrinks the first string, so a budget of
`|s1| + 1` never runs out; `lcsSum_spec` below recovers the source's
unbudgeted recurrence. -/
def lcsSumFuel : Nat → Str → Str → Nat
  | 0, _, _ => 0
  | fuel + 1, s1, s2 =>
    match longestCommonSubstring s1 s2 with
    | none => 0
    | some b =>
      b.len + lcsSumFuel fuel (s1.take b.i) (s2.take b.j)
        + lcsSumFuel fuel (s1.drop (b.i + b.len)) (s2.drop (b.j + b.len))

/-- The sum of matched lengths of `sequenceMatcherRatio` (route.ts:122). -/
def lcsSum (s1 s2 : Str) : Nat :=
  lcsSumFuel (s1.length + 1) s1 s2

/-- Embeds `sequenceMatcherRatio` (route.ts:115): the Ratcliff/Obershelp-style
similarity, `2 × matched / (|a| + |b|)`, with the empty-string special
cases. -/
def sequenceMatcherRatio (a b : Str) : ℚ :=
  if a.length = 0 ∧ b.length = 0 then 1
  else if a.length = 0 ∨ b.length = 0 then 0
  else (2 * (lcsSum a b : ℚ)) / ((a.length : ℚ) + (b.length : ℚ))

/-! ## Scoring (route.ts:575) and citation verification (route.ts:603) -/

/-- An extracted citation (`CitationSchema`): a title and an author list. -/
structure Citation where
  title : Str
  authors : List Str
deriving DecidableEq, Repr

/-- Embeds `scoreMatchFields` (route.ts:575).  The title score is the
similarity of the normalized titles when both are present and non-empty
(JavaScript truthiness), else 0; the author score divides the intersection of
the two sets of non-empty normalized author names by the size of the citation
side's set; the result weights them 0.8 / 0.2. -/
def scoreMatchFields (refTitle : Option Str) (refAuthors : List Str)
    (foundTitle : Option Str) (foundAuthors : List Str) : ℚ :=
  let titleScore : ℚ :=
    match refTitle, foundTitle with
    | some rt, some ft =>
      if rt ≠ [] ∧ ft ≠ [] then sequenceMatcherRatio (normalize rt) (normalize ft)
      else 0
    | _, _ => 0
  let authorScore : ℚ :=
    if refAuthors ≠ [] ∧ foundAuthors ≠ [] then
      let refSet := ((refAuthors.map normalize).filter (fun s => !s.isEmpty)).toFinset
      let foundSet := ((foundAuthors.map normalize).filter (fun s => !s.isEmpty)).toFinset
      if refSet.card ≠ 0 then ((refSet ∩ foundSet).card : ℚ) / (refSet.card : ℚ)
      else 0
    else 0
  titleScore * 0.8 + authorScore * 0.2

/-- The title part of the per-source score.  The specification's sentence
leaves `titleSimilarity` undefined, so this takes the code's reading: the
similarity of the normalized titles when both are present and non-empty. -/
def specTitleSimilarity (refTitle foundTitle : Option Str) : ℚ :=
  match refTitle, foundTitle with
  | some rt, some ft =>
    if rt ≠ [] ∧ ft ≠ [] then sequenceMatcherRatio (normalize rt) (normalize ft)
    else 0
  | _, _ => 0

/-- The author overlap exactly as the specification's sentence words it:
`|normalized citation authors ∩ normalized found authors| /
|normalized citation authors|`, and 0 if either author list is empty.  The
sets are the images of the author lists under `normalize`. -/
def specAuthorOverlap (refAuthors foundAuthors : List Str) : ℚ :=
  if refAuthors = [] ∨ foundAuthors = [] then 0
  else
    (((refAuthors.map normalize).toFinset ∩ (foundAuthors.map normalize).toFinset).card : ℚ)
      / ((refAuthors.map normalize).toFinset.card : ℚ)

/-- The per-source match score exactly as the specification words it:
`titleSimilarity × 0.8 + authorOverlap × 0.2`. -/
def specPerSourceScore (refTitle : Option Str) (refAuthors : List Str)
    (foundTitle : Option Str) (foundAuthors : List Str) : ℚ :=
  specTitleSimilarity refTitle foundTitle * 0.8
    + specAuthorOverlap refAuthors foundAuthors * 0.2

/-- The author overlap as the code computes it: as `specAuthorOverlap`, but
only authors whose normalized form is non-empty count on either side, and the
overlap is 0 when no citation author survives normalization. -/
def specAuthorOverlapKept (refAuthors foundAuthors : List Str) : ℚ :=
  if refAuthors = [] ∨ foundAuthors = [] then 0
  else
    let refSet := ((refAuthors.map normalize).toFinset).filter (fun s => s ≠ [])
    let foundSet := ((foundAuthors.map normalize).toFinset).filter (fun s => s ≠ [])
    if refSet.card = 0 then 0
    else ((refSet ∩ foundSet).card : ℚ) / (refSet.card : ℚ)

/-- The per-source match score with the corrected author overlap. -/
def specPerSourceScoreKept (refTitle : Option Str) (refAuthors : List Str)
    (foundTitle : Option Str) (foundAuthors : List Str) : ℚ :=
  specTitleSimilarity refTitle foundTitle * 0.8
    + specAuthorOverlapKept refAuthors foundAuthors * 0.2

/-- Verification verdict for one citation. -/
inductive VerificationStatus where
  | verified
  | unverified
deriving DecidableEq, Repr

/-- A Semantic Scholar author entry (`{ name?: string }`). -/
structure SSAuthor where
  name : Option Str
deriving DecidableEq, Repr

/-- A Semantic Scholar search item (`SemanticScholarItem`, route.ts:363):
every field is optional. -/
structure SemanticScholarItem where
  title : Option Str
  authors : Option (List SSAuthor)
  paperId : Option Str
deriving DecidableEq, Repr

/-- The fields extracted from a Semantic Scholar item. -/
structure SSFields where
  title : Option Str
  authors : List Str
  paperId : Option Str
deriving DecidableEq, Repr

/-- Embeds `extractSemanticScholarFields` (route.ts:448): author names are
kept when present and non-blank (`trim().length > 0`). -/
def extractSemanticScholarFields : Option SemanticScholarItem → SSFields
  | none => ⟨none, [], none⟩
  | some it =>
    ⟨it.title,
      (match it.authors with
        | none => []
        | some l =>
          (l.map (fun a => a.name)).filterMap fun o =>
            match o with
            | some s => if 0 < (trimStr s).length then some s else none
            | none => none),
      it.paperId⟩

/-- The fields of one arXiv entry (`ArxivFields`, route.ts:457). -/
structure ArxivFields where
  title : Option Str
  authors : List Str
  arxivId : Option Str
deriving DecidableEq, Repr

/-- The URL built for a Semantic Scholar paper id. -/
def semanticScholarPaperUrl (pid : Str) : Str :=
  "https://www.semanticscholar.org/paper/".data ++ pid

/-- The URL built for an arXiv id. -/
def arxivAbsUrl (aid : Str) : Str :=
  "https://arxiv.org/abs/".data ++ aid

/-- `arxiv?.arxivId` truthiness and the resulting URL: the arXiv URL when the
lookup produced an entry whose id is present and non-empty, else nothing. -/
def arxivUrlOf : Option ArxivFields → Option Str
  | none => none
  | some ax =>
    match ax.arxivId with
    | none => none
    | some aid => if aid ≠ [] then some (arxivAbsUrl aid) else none

/-- The per-source summary recorded in a result (`{title, authors, score}`). -/
structure SourceScore where
  title : Option Str
  authors : List Str
  score : ℚ
deriving DecidableEq, Repr

/-- The result of verifying one citation. -/
structure VerificationResult where
  ref : Citation
  score : ℚ
  status : VerificationStatus
  semantic_scholar : Option SourceScore
  arxiv : Option SourceScore
  sourceUrl : Option Str
deriving DecidableEq, Repr

/-- Embeds the pure core of `verifyCitation` (route.ts:603).  The two
external lookups are modelled by their outcomes `ssItem` and `arxiv`
(`none` = the lookup failed or found nothing; a caught exception leaves the
variable `null` in the source, which is the same `none`).  The per-request
cache and the rate-limiting sleep are not modelled. -/
def verifyCitation (c : Citation) (minScore : ℚ)
    (ssItem : Option SemanticScholarItem) (arxiv : Option ArxivFields) :
    VerificationResult :=
  let ss := extractSemanticScholarFields ssItem
  let ssScore : ℚ :=
    if ssItem.isSome then scoreMatchFields (some c.title) c.authors ss.title ss.authors
    else 0
  let arxivScore : ℚ :=
    match arxiv with
    | some ax => scoreMatchFields (some c.title) c.authors ax.title ax.authors
    | none => 0
  let score := max ssScore arxivScore
  let status : VerificationStatus :=
    if minScore ≤ score then .verified else .unverified
  let sourceUrl : Option Str :=
    if status = .verified then
      match ss.paperId with
      | some pid =>
        if arxivScore ≤ ssScore ∧ pid ≠ [] then some (semanticScholarPaperUrl pid)
        else arxivUrlOf arxiv
      | none => arxivUrlOf arxiv
    else none
  { ref := c
    score := score
    status := status
    semantic_scholar :=
      match ssItem with
      | some _ => some ⟨ss.title, ss.authors, ssScore⟩
      | none => none
    arxiv :=
      match arxiv with
      | some ax => some ⟨ax.title, ax.authors, arxivScore⟩
      | none => none
    sourceUrl := sourceUrl }

/-! ## Request-level configuration (route.ts:678) -/

/-- Embeds the `min_score` handling of `POST` (route.ts:680 and 686): absent
(`raw = none`) defaults to 0.5; a value below 0 or above 1 makes the request
fail with a 400 response (modelled as `none`); otherwise the run proceeds
with the value (`some`).  A non-numeric string is rejected by the same
guard through `Number.isFinite` and is outside this model. -/
def resolveMinScore (raw : Option ℚ) : Option ℚ :=
  let minScore := match raw with | some q => q | none => (0.5 : ℚ)
  if minScore < 0 ∨ 1 < minScore then none else some minScore

/-! ## Deduplication (page.tsx:467) -/

/-- The loop of `deduplicateCitations`: `seen` collects the normalized titles
already kept; an entry is skipped when its normalized title is empty or seen. -/
def dedupAux (seen : List Str) : List Citation → List Citation
  | [] => []
  | c :: rest =>
    let normalizedTitle := normalize c.title
    if normalizedTitle = [] ∨ normalizedTitle ∈ seen then dedupAux seen rest
    else c :: dedupAux (normalizedTitle :: seen) rest

/-- Embeds `deduplicateCitations` (page.tsx:467): keep the first occurrence
of each normalized title. -/
def deduplicateCitations (citations : List Citation) : List Citation :=
  dedupAux [] citations

/-! ## Extraction-output validation (route.ts:11, `zod` schemas)

`CitationSchema` requires `title` to be a string of length ≥ 1 and defaults a
missing `authors` to `[]`; `z.array(CitationSchema).parse` fails as a whole
as soon as one element fails. -/

/-- A raw citation entry of the parsed model output, before validation:
either field may be missing. -/
structure RawCitation where
  title : Option Str
  authors : Option (List Str)
deriving DecidableEq, Repr

/-- Validation of one entry by `CitationSchema`: `none` when the title is
missing or empty, else the citation with `authors` defaulted to `[]`. -/
def parseCitationEntry (e : RawCitation) : Option Citation :=
  match e.title with
  | none => none
  | some t => if 1 ≤ t.length then some ⟨t, e.authors.getD []⟩ else none

/-- Validation of the `citations` array: `z.array(CitationSchema)` semantics,
all-or-nothing — one invalid entry fails the whole parse. -/
def parseCitations : List RawCitation → Option (List Citation)
  | [] => some []
  | e :: rest =>
    match parseCitationEntry e, parseCitations rest with
    | some c, some cs => some (c :: cs)
    | _, _ => none

/-! ## The bounded worker pool (route.ts:202)

`mapWithConcurrency` starts `min(concurrency, items.length)` workers; each
repeatedly takes the next unprocessed index `idx` (the shared counter
`nextIndex++` hands every index out exactly once) and writes the value of
`fn(items[idx], idx)` into slot `idx` of a pre-sized results array.  The
model abstracts the scheduler by the chronological order `order` in which
slots get written: with at least one worker every index is processed, so
`order` ranges over the permutations of `0 .. items.length - 1`; with zero
workers nothing is written. -/

/-- One iteration of a worker's loop: take index `idx` and write
`fn(items[idx], idx)` into slot `idx` (the source's guard `idx >= items.length`
means an out-of-range index writes nothing). -/
def poolStep (items : List α) (fn : Nat → α → β)
    (results : List (Option β)) (idx : Nat) : List (Option β) :=
  match items[idx]? with
  | some x => results.set idx (some (fn idx x))
  | none => results

def mapWithConcurrency (items : List α) (concurrency : Nat)
    (fn : Nat → α → β) (order : List Nat) : List (Option β) :=
  let init : List (Option β) := List.replicate items.length none
  if min concurrency items.length = 0 then init
  else order.foldl (poolStep items fn) init

/-! ## Chunking (page.tsx:424) -/

/-- `MAX_INPUT_TOKENS` (page.tsx:214). -/
def MAX_INPUT_TOKENS : Nat := 1000

/-- `CHARS_PER_TOKEN` (page.tsx:215). -/
def CHARS_PER_TOKEN : Nat := 4

/-- `MAX_INPUT_CHARS` (page.tsx:216). -/
def MAX_INPUT_CHARS : Nat := MAX_INPUT_TOKENS * CHARS_PER_TOKEN

/-- `split(/\r?\n/)`: break at `"\r\n"` or `"\n"`; a lone `'\r'` is ordinary
text.  `acc` holds the current line reversed. -/
def splitLinesAux : Str → Str → List Str
  | [], acc => [acc.reverse]
  | '\n' :: rest, acc => acc.reverse :: splitLinesAux rest []
  | '\r' :: '\n' :: rest, acc => acc.reverse :: splitLinesAux rest []
  | c :: rest, acc => splitLinesAux rest (c :: acc)

/-- The line sequence of a text. -/
def splitLines (s : Str) : List Str :=
  splitLinesAux s []

/-- `join("\n")`. -/
def joinLines (lines : List Str) : Str :=
  (lines.intersperse ['\n']).flatten

/-- The line-accumulating loop of `chunkReferencesSection` (page.tsx:436):
when appending the next line would exceed `maxChars` and the current chunk is
non-empty, the chunk is closed and the next one is seeded with its last
`min 5 (number of lines)` lines; the final partial chunk is always emitted. -/
def chunkLoop (maxChars : Nat) : List Str → List Str → Nat → List (List Str)
  | [], currentChunk, _ =>
    if 0 < currentChunk.length then [currentChunk] else []
  | line :: rest, currentChunk, currentSize =>
    let lineSize := line.length + 1
    if maxChars < currentSize + lineSize ∧ 0 < currentChunk.length then
      let overlapLines := min 5 currentChunk.length
      let seeded := currentChunk.drop (currentChunk.length - overlapLines)
      let seededSize := (seeded.map (fun l => l.length + 1)).sum
      currentChunk :: chunkLoop maxChars rest (seeded ++ [line]) (seededSize + lineSize)
    else
      chunkLoop maxChars rest (currentChunk ++ [line]) (currentSize + lineSize)

/-- Embeds `chunkReferencesSection` (page.tsx:424): a text within
`MAX_INPUT_CHARS` is one chunk, identical to the input; otherwise the text is
split into lines and chunked by `chunkLoop`. -/
def chunkReferencesSection (referencesText : Str) : List Str :=
  if referencesText.length ≤ MAX_INPUT_CHARS then [referencesText]
  else (chunkLoop MAX_INPUT_CHARS (splitLines referencesText) [] 0).map joinLines

/-- The chunks of an oversized text, as line lists (before joining). -/
def chunkLinesOf (referencesText : Str) : List (List Str) :=
  chunkLoop MAX_INPUT_CHARS (splitLines referencesText) [] 0

/-- Drop the first `n` lines of the first chunk, and of every later chunk its
overlap with its predecessor (the predecessor's last `min 5 (lines)` lines),
then concatenate. -/
def removeOverlapsAux (prev : List Str) : List (List Str) → List Str
  | [] => []
  | c :: cs => c.drop (min 5 prev.length) ++ removeOverlapsAux c cs

/-- As `removeOverlapsAux`, with `n` lines dropped from the first chunk. -/
def stripFirst (n : Nat) : List (List Str) → List Str
  | [] => []
  | c :: cs => c.drop n ++ removeOverlapsAux c cs

/-- Concatenate the chunks minus the seeded overlaps. -/
def removeOverlaps (chunks : List (List Str)) : List Str :=
  stripFirst 0 chunks

/-- Concatenate the chunks dropping a literal 5 lines from every chunk after
the first (the overlap size the specification announces). -/
def removeOverlaps5 (chunks : List (List Str)) : List Str :=
  match chunks with
  | [] => []
  | c :: cs => c ++ (cs.map (fun d => d.drop 5)).flatten

/-- A chunk begins with the last `min 5 (lines)` lines of its predecessor. -/
def SeededWithOverlap (a b : List Str) : Prop :=
  b.take (min 5 a.length) = a.drop (a.length - min 5 a.length)

/-- A chunk begins with the last 5 lines of its predecessor (the literal
reading of the specification). -/
def SeededWith5 (a b : List Str) : Prop :=
  b.take 5 = a.drop (a.length - 5)

/-! ## Theorems -/

theorem lcsScanRow_ok {n m : Nat} (i : Nat) :
    ∀ (j : Nat) (row : List Nat) (best : LCSMatch),
      (∀ (k : Nat) (hk : k < row.length), row[k] ≤ i ∧ row[k] ≤ j + k) →
      i ≤ n → j + row.length ≤ m + 1 → 1 ≤ j →
      MatchOK n m best → MatchOK n m (lcsScanRow i j row best) := by
  intro j row
  induction row generalizing j with
  | nil => intro best _ _ _ _ hb; simpa [lcsScanRow] using hb
  | cons v rest ih =>
    intro best hrow hin hjm hj hb
    simp only [lcsScanRow]
    apply ih
    · intro k hk
      have h := hrow (k + 1) (by simpa using Nat.succ_lt_succ hk)
      simp only [List.getElem_cons_succ] at h
      exact ⟨h.1, by omega⟩
    · exact hin
    · simp only [List.length_cons] at hjm; omega
    · omega
    · by_cases hlt : best.len < v
      · have hv := hrow 0 (by simp)
        simp only [List.getElem_cons_zero, Nat.add_zero] at hv
        have hvi : v ≤ i := hv.1
        have hvj : v ≤ j := hv.2
        have hjmm : j ≤ m := by simp only [List.length_cons] at hjm; omega
        rw [if_pos hlt]
        exact Or.inr ⟨by show 1 ≤ v; omega,
          by show i - v + v ≤ n; omega,
          by show j - v + v ≤ m; omega⟩
      · rwa [if_neg hlt]

theorem lcsRowVals_length (c : Char) (s2 : Str) (prevRow : List Nat) :
    (lcsRowVals c s2 prevRow).length = min s2.length (prevRow.length + 1) := by
  simp [lcsRowVals]

theorem lcsRowVals_bound (c : Char) (s2 : Str) (prevRow : List Nat) (i : Nat)
    (hprev : ∀ (k : Nat) (hk : k < prevRow.length),
      prevRow[k] ≤ i - 1 ∧ prevRow[k] ≤ k + 1)
    (hi : 1 ≤ i) :
    ∀ (k : Nat) (hk : k < (lcsRowVals c s2 prevRow).length),
      (lcsRowVals c s2 prevRow)[k] ≤ i ∧ (lcsRowVals c s2 prevRow)[k] ≤ 1 + k := by
  intro k hk
  have hlen := hk
  rw [lcsRowVals_length] at hlen
  have hk2 : k < s2.length := by omega
  have hk3 : k < (0 :: prevRow).length := by simp; omega
  have hval : (lcsRowVals c s2 prevRow)[k] =
      if c = s2[k] then (0 :: prevRow)[k] + 1 else 0 := by
    simp [lcsRowVals]
  rw [hval]
  split
  · cases k with
    | zero => simp only [List.getElem_cons_zero]; omega
    | succ k' =>
      have hk4 : k' < prevRow.length := by simp at hk3; omega
      have h := hprev k' hk4
      simp only [List.getElem_cons_succ]
      omega
  · omega

theorem lcsRows_ok {n m : Nat} (s2 : Str) (hm : s2.length = m) :
    ∀ (s1rest : Str) (i : Nat) (prevRow : List Nat) (best : LCSMatch),
      i + s1rest.length = n + 1 → 1 ≤ i →
      prevRow.length = m →
      (∀ (k : Nat) (hk : k < prevRow.length),
        prevRow[k] ≤ i - 1 ∧ prevRow[k] ≤ k + 1) →
      MatchOK n m best →
      MatchOK n m (lcsRows s2 i s1rest prevRow best) := by
  intro s1rest
  induction s1rest with
  | nil => intro i prevRow best _ _ _ _ hb; simpa [lcsRows] using hb
  | cons c rest ih =>
    intro i prevRow best hlen hi hprevlen hprev hb
    simp only [lcsRows]
    have hrowlen : (lcsRowVals c s2 prevRow).length = m := by
      rw [lcsRowVals_length, hprevlen, hm]; omega
    have hrowbound := lcsRowVals_bound c s2 prevRow i hprev hi
    apply ih (i + 1)
    · simp only [List.length_cons] at hlen; omega
    · omega
    · exact hrowlen
    · intro k hk
      have h := hrowbound k hk
      exact ⟨by omega, by omega⟩
    · apply lcsScanRow_ok i 1 _ best
      · intro k hk
        have h := hrowbound k hk
        exact ⟨h.1, by omega⟩
      · simp only [List.length_cons] at hlen; omega
      · rw [hrowlen]; omega
      · omega
      · exact hb

/-- The match returned by `longestCommonSubstring` has positive length and
lies inside both strings. -/
theorem longestCommonSubstring_bounds {s1 s2 : Str} {b : LCSMatch}
    (h : longestCommonSubstring s1 s2 = some b) :
    1 ≤ b.len ∧ b.i + b.len ≤ s1.length ∧ b.j + b.len ≤ s2.length := by
  unfold longestCommonSubstring at h
  set best := lcsRows s2 1 s1 (List.replicate s2.length 0) ⟨0, 0, 0⟩ with hbest
  have hok : MatchOK s1.length s2.length best := by
    apply lcsRows_ok s2 rfl s1 1 (List.replicate s2.length 0) ⟨0, 0, 0⟩
    · omega
    · omega
    · simp
    · intro k hk; simp
    · left; rfl
  by_cases hpos : 0 < best.len
  · rw [if_pos hpos] at h
    obtain rfl : best = b := Option.some.inj h
    rcases hok with h0 | hok
    · omega
    · exact hok
  · rw [if_neg hpos] at h
    exact absurd h (by simp)

theorem lcsSumFuel_stable :
    ∀ (f1 : Nat) (s1 s2 : Str) (f2 : Nat), s1.length < f1 → s1.length < f2 →
      lcsSumFuel f1 s1 s2 = lcsSumFuel f2 s1 s2 := by
  intro f1
  induction f1 with
  | zero => intro s1 s2 f2 h1 _; omega
  | succ f ih =>
    intro s1 s2 f2 h1 h2
    rcases f2 with _ | f2'
    · omega
    · rw [lcsSumFuel, lcsSumFuel]
      cases hb : longestCommonSubstring s1 s2 with
      | none => rfl
      | some b =>
        have hbb := longestCommonSubstring_bounds hb
        have htake : (s1.take b.i).length < f := by
          simp only [List.length_take]; omega
        have hdrop : (s1.drop (b.i + b.len)).length < f := by
          simp only [List.length_drop]; omega
        have htake2 : (s1.take b.i).length < f2' := by
          simp only [List.length_take]; omega
        have hdrop2 : (s1.drop (b.i + b.len)).length < f2' := by
          simp only [List.length_drop]; omega
        dsimp only
        rw [ih _ _ f2' htake htake2, ih _ _ f2' hdrop hdrop2]

/-- `lcsSum` satisfies the recurrence of the source: the longest common
contiguous substring's length plus the sums for the parts to its left and to
its right. -/
theorem lcsSum_spec (s1 s2 : Str) :
    lcsSum s1 s2 =
      match longestCommonSubstring s1 s2 with
      | none => 0
      | some b =>
        b.len + lcsSum (s1.take b.i) (s2.take b.j)
          + lcsSum (s1.drop (b.i + b.len)) (s2.drop (b.j + b.len)) := by
  unfold lcsSum
  rw [lcsSumFuel]
  cases hb : longestCommonSubstring s1 s2 with
  | none => rfl
  | some b =>
    have hbb := longestCommonSubstring_bounds hb
    dsimp only
    rw [lcsSumFuel_stable s1.length (s1.take b.i) (s2.take b.j)
        ((s1.take b.i).length + 1) (by simp only [List.length_take]; omega) (by omega),
      lcsSumFuel_stable s1.length (s1.drop (b.i + b.len)) (s2.drop (b.j + b.len))
        ((s1.drop (b.i + b.len)).length + 1)
        (by simp only [List.length_drop]; omega) (by omega)]

/-- The matched total never exceeds either string's length. -/
theorem lcsSumFuel_le (f : Nat) :
    ∀ (s1 s2 : Str), lcsSumFuel f s1 s2 ≤ min s1.length s2.length := by
  induction f with
  | zero => intro s1 s2; simp [lcsSumFuel]
  | succ f ih =>
    intro s1 s2
    rw [lcsSumFuel]
    cases hb : longestCommonSubstring s1 s2 with
    | none => simp
    | some b =>
      have hbb := longestCommonSubstring_bounds hb
      have h1 := ih (s1.take b.i) (s2.take b.j)
      have h2 := ih (s1.drop (b.i + b.len)) (s2.drop (b.j + b.len))
      simp only [List.length_take, List.length_drop] at h1 h2 ⊢
      omega

/-- The matched total never exceeds either string's length. -/
theorem lcsSum_le (s1 s2 : Str) : lcsSum s1 s2 ≤ min s1.length s2.length :=
  lcsSumFuel_le (s1.length + 1) s1 s2

/-- The similarity ratio always lies in `[0, 1]`. -/
theorem sequenceMatcherRatio_mem (a b : Str) :
    0 ≤ sequenceMatcherRatio a b ∧ sequenceMatcherRatio a b ≤ 1 := by
  by_cases h1 : a.length = 0 ∧ b.length = 0
  · simp [sequenceMatcherRatio, h1]
  · by_cases h2 : a.length = 0 ∨ b.length = 0
    · rw [sequenceMatcherRatio, if_neg h1, if_pos h2]; norm_num
    · push_neg at h2
      have ha : 0 < a.length := Nat.pos_of_ne_zero h2.1
      have hb : 0 < b.length := Nat.pos_of_ne_zero h2.2
      have hsum : 2 * lcsSum a b ≤ a.length + b.length := by
        have := lcsSum_le a b
        omega
      have hden : (0 : ℚ) < (a.length : ℚ) + (b.length : ℚ) := by
        have : (0 : ℚ) < (a.length : ℚ) := by exact_mod_cast ha
        have : (0 : ℚ) ≤ (b.length : ℚ) := by positivity
        linarith [show (0 : ℚ) < (a.length : ℚ) from by exact_mod_cast ha]
      rw [sequenceMatcherRatio, if_neg h1, if_neg (by push_neg; exact h2)]
      constructor
      · apply div_nonneg _ (le_of_lt hden)
        positivity
      · rw [div_le_one hden]
        exact_mod_cast hsum

theorem filter_toFinset_eq (l : List Str) :
    (l.filter (fun s => !s.isEmpty)).toFinset = l.toFinset.filter (fun s => s ≠ []) := by
  rw [List.toFinset_filter]
  apply Finset.filter_congr
  intro x _
  simp [List.isEmpty_iff]

/-- `scoreMatchFields` computes the specification's weighted formula with the
corrected author overlap. -/
theorem scoreMatchFields_eq_kept (refTitle : Option Str) (refAuthors : List Str)
    (foundTitle : Option Str) (foundAuthors : List Str) :
    scoreMatchFields refTitle refAuthors foundTitle foundAuthors =
      specPerSourceScoreKept refTitle refAuthors foundTitle foundAuthors := by
  by_cases h1 : refAuthors = [] ∨ foundAuthors = []
  · have h2 : ¬(refAuthors ≠ [] ∧ foundAuthors ≠ []) := by tauto
    simp only [scoreMatchFields, specPerSourceScoreKept, specAuthorOverlapKept,
      specTitleSimilarity, if_pos h1, if_neg h2]
  · have h2 : refAuthors ≠ [] ∧ foundAuthors ≠ [] := by tauto
    simp only [scoreMatchFields, specPerSourceScoreKept, specAuthorOverlapKept,
      specTitleSimilarity, if_neg h1, if_pos h2, filter_toFinset_eq]
    by_cases hcard : (((refAuthors.map normalize).toFinset).filter (fun s => s ≠ [])).card = 0
    · have hcard' : ¬(((refAuthors.map normalize).toFinset).filter (fun s => s ≠ [])).card ≠ 0 := by
        simpa using hcard
      simp only [if_pos hcard, if_neg hcard']
    · simp only [if_neg hcard, if_pos hcard]

theorem weighted_mem {t a : ℚ} (ht : 0 ≤ t ∧ t ≤ 1) (ha : 0 ≤ a ∧ a ≤ 1) :
    0 ≤ t * 0.8 + a * 0.2 ∧ t * 0.8 + a * 0.2 ≤ 1 := by
  constructor <;> nlinarith [ht.1, ht.2, ha.1, ha.2]

theorem authorIntersection_mem (refAuthors foundAuthors : List Str) :
    0 ≤ (if refAuthors ≠ [] ∧ foundAuthors ≠ [] then
      let refSet := ((refAuthors.map normalize).filter (fun s => !s.isEmpty)).toFinset
      let foundSet := ((foundAuthors.map normalize).filter (fun s => !s.isEmpty)).toFinset
      if refSet.card ≠ 0 then ((refSet ∩ foundSet).card : ℚ) / (refSet.card : ℚ)
      else 0
    else 0) ∧ (if refAuthors ≠ [] ∧ foundAuthors ≠ [] then
      let refSet := ((refAuthors.map normalize).filter (fun s => !s.isEmpty)).toFinset
      let foundSet := ((foundAuthors.map normalize).filter (fun s => !s.isEmpty)).toFinset
      if refSet.card ≠ 0 then ((refSet ∩ foundSet).card : ℚ) / (refSet.card : ℚ)
      else 0
    else 0) ≤ 1 := by
  split
  · set refSet := ((refAuthors.map normalize).filter (fun s => !s.isEmpty)).toFinset
    set foundSet := ((foundAuthors.map normalize).filter (fun s => !s.isEmpty)).toFinset
    simp only
    split
    · rename_i hcard
      have hsub : (refSet ∩ foundSet).card ≤ refSet.card :=
        Finset.card_le_card Finset.inter_subset_left
      have hpos : (0 : ℚ) < (refSet.card : ℚ) := by
        have : 0 < refSet.card := Nat.pos_of_ne_zero hcard
        exact_mod_cast this
      constructor
      · positivity
      · rw [div_le_one hpos]
        exact_mod_cast hsub
    · norm_num
  · norm_num

/-- `scoreMatchFields` always lies in `[0, 1]`. -/
theorem scoreMatchFields_mem (refTitle : Option Str) (refAuthors : List Str)
    (foundTitle : Option Str) (foundAuthors : List Str) :
    0 ≤ scoreMatchFields refTitle refAuthors foundTitle foundAuthors ∧
      scoreMatchFields refTitle refAuthors foundTitle foundAuthors ≤ 1 := by
  unfold scoreMatchFields
  refine weighted_mem ?_ (authorIntersection_mem refAuthors foundAuthors)
  rcases refTitle with _ | rt <;> rcases foundTitle with _ | ft
  · exact ⟨le_refl 0, by norm_num⟩
  · exact ⟨le_refl 0, by norm_num⟩
  · exact ⟨le_refl 0, by norm_num⟩
  · by_cases h : rt ≠ [] ∧ ft ≠ []
    · simp only [if_pos h]
      exact sequenceMatcherRatio_mem _ _
    · simp only [if_neg h]
      exact ⟨le_refl 0, by norm_num⟩

/-! ### Order preservation of the worker pool -/

theorem poolStep_length (items : List α) (fn : Nat → α → β)
    (results : List (Option β)) (idx : Nat) :
    (poolStep items fn results idx).length = results.length := by
  unfold poolStep
  cases items[idx]? <;> simp

theorem pool_foldl_length (items : List α) (fn : Nat → α → β) :
    ∀ (order : List Nat) (acc : List (Option β)),
      (order.foldl (poolStep items fn) acc).length = acc.length := by
  intro order
  induction order with
  | nil => intro acc; rfl
  | cons j rest ih =>
    intro acc
    simp only [List.foldl_cons]
    rw [ih, poolStep_length]

theorem pool_foldl_untouched (items : List α) (fn : Nat → α → β) :
    ∀ (order : List Nat) (acc : List (Option β)) (i : Nat), i ∉ order →
      (order.foldl (poolStep items fn) acc)[i]? = acc[i]? := by
  intro order
  induction order with
  | nil => intro acc i _; rfl
  | cons j rest ih =>
    intro acc i hi
    simp only [List.mem_cons, not_or] at hi
    simp only [List.foldl_cons]
    rw [ih (poolStep items fn acc j) i hi.2]
    unfold poolStep
    cases items[j]? with
    | none => rfl
    | some x => exact List.getElem?_set_ne (Ne.symm hi.1)

theorem pool_foldl_written (items : List α) (fn : Nat → α → β) :
    ∀ (order : List Nat) (acc : List (Option β)) (i : Nat)
      (hi : i < items.length), acc.length = items.length → i ∈ order →
      (order.foldl (poolStep items fn) acc)[i]? = some (some (fn i items[i])) := by
  intro order
  induction order with
  | nil => intro acc i _ _ hmem; exact absurd hmem (List.not_mem_nil i)
  | cons j rest ih =>
    intro acc i hi hacc hmem
    simp only [List.foldl_cons]
    by_cases hrest : i ∈ rest
    · exact ih (poolStep items fn acc j) i hi
        (by rw [poolStep_length]; exact hacc) hrest
    · have hij : i = j := by
        rcases List.mem_cons.mp hmem with h | h
        · exact h
        · exact absurd h hrest
      subst hij
      rw [pool_foldl_untouched items fn rest (poolStep items fn acc i) i hrest]
      unfold poolStep
      rw [List.getElem?_eq_getElem hi]
      exact List.getElem?_set_self (by omega)

/-- The output of the worker pool, with at least one worker and under any
completion order, is the input list mapped in place: slot `i` holds the value
computed for item `i`. -/
theorem mapWithConcurrency_eq_mapIdx (items : List α) (concurrency : Nat)
    (fn : Nat → α → β) (order : List Nat)
    (hc : 0 < concurrency) (horder : order.Perm (List.range items.length)) :
    mapWithConcurrency items concurrency fn order =
      items.mapIdx fun i x => some (fn i x) := by
  unfold mapWithConcurrency
  rcases items with _ | ⟨x, items'⟩
  · simp
  · set items := x :: items' with hitems
    have hmin : ¬ min concurrency items.length = 0 := by
      simp only [hitems, List.length_cons]
      omega
    rw [if_neg hmin]
    apply List.ext_getElem?
    intro i
    by_cases hi : i < items.length
    · have hmem : i ∈ order := horder.mem_iff.mpr (List.mem_range.mpr hi)
      rw [pool_foldl_written items fn order (List.replicate items.length none) i hi
        (List.length_replicate _ _) hmem]
      rw [List.getElem?_mapIdx, List.getElem?_eq_getElem hi]
      rfl
    · rw [List.getElem?_eq_none, List.getElem?_eq_none]
      · rw [List.length_mapIdx]; omega
      · rw [pool_foldl_length, List.length_replicate]; omega

/-! ### Properties of the chunking loop -/

theorem removeOverlapsAux_eq_strip (prev : List Str) (cs : List (List Str)) :
    removeOverlapsAux prev cs = stripFirst (min 5 prev.length) cs := by
  cases cs <;> rfl

/-- The first chunk the loop emits extends the chunk under construction. -/
theorem chunkLoop_head (maxChars : Nat) :
    ∀ (lines : List Str) (cur : List Str) (size : Nat), cur ≠ [] ∨ lines ≠ [] →
      ∃ t cs, chunkLoop maxChars lines cur size = (cur ++ t) :: cs := by
  intro lines
  induction lines with
  | nil =>
    intro cur size h
    have hcur : cur ≠ [] := by tauto
    refine ⟨[], [], ?_⟩
    simp only [chunkLoop]
    rw [if_pos (by cases cur with | nil => exact absurd rfl hcur | cons a l => simp)]
    simp
  | cons line rest ih =>
    intro cur size _
    simp only [chunkLoop]
    split
    · have hgen : ∀ (X : List (List Str)), ∃ t cs, (cur :: X) = (cur ++ t) :: cs :=
        fun X => ⟨[], X, by rw [List.append_nil]⟩
      exact hgen _
    · obtain ⟨t, cs, heq⟩ := ih (cur ++ [line]) (size + (line.length + 1))
        (Or.inl (by simp))
      exact ⟨[line] ++ t, cs, by rw [heq]; simp⟩

/-- Removing the chunk under construction from the first chunk and the seeded
overlap from every later chunk recovers exactly the lines fed to the loop. -/
theorem chunkLoop_strip (maxChars : Nat) :
    ∀ (lines : List Str) (cur : List Str) (size : Nat),
      stripFirst cur.length (chunkLoop maxChars lines cur size) = lines := by
  intro lines
  induction lines with
  | nil =>
    intro cur size
    simp only [chunkLoop]
    split
    · simp [stripFirst, removeOverlapsAux]
    · simp [stripFirst]
  | cons line rest ih =>
    intro cur size
    simp only [chunkLoop]
    split
    · rename_i hcond
      set ov := cur.drop (cur.length - min 5 cur.length) with hov
      have hovlen : ov.length = min 5 cur.length := by
        rw [hov, List.length_drop]
        omega
      have key : ∀ S : Nat,
          stripFirst cur.length (cur :: chunkLoop maxChars rest (ov ++ [line]) S) =
            line :: rest := by
        intro S
        obtain ⟨t, cs, heq⟩ :=
          chunkLoop_head maxChars rest (ov ++ [line]) S (Or.inl (by simp))
        have hih := ih (ov ++ [line]) S
        rw [heq] at hih ⊢
        simp only [stripFirst, List.drop_length, List.nil_append] at hih ⊢
        rw [removeOverlapsAux_eq_strip, stripFirst]
        have hdrop1 : ((ov ++ [line]) ++ t).drop (min 5 cur.length) = line :: t := by
          rw [List.append_assoc, ← hovlen, List.drop_left]
          rfl
        have hdrop2 : ((ov ++ [line]) ++ t).drop ((ov ++ [line]).length) = t :=
          List.drop_left _ _
        rw [hdrop1]
        rw [hdrop2] at hih
        rw [List.cons_append, hih]
      exact key _
    · rename_i hcond
      have key : ∀ S : Nat,
          stripFirst cur.length (chunkLoop maxChars rest (cur ++ [line]) S) =
            line :: rest := by
        intro S
        obtain ⟨t, cs, heq⟩ :=
          chunkLoop_head maxChars rest (cur ++ [line]) S (Or.inl (by simp))
        have hih := ih (cur ++ [line]) S
        rw [heq] at hih ⊢
        simp only [stripFirst] at hih ⊢
        have hdrop1 : ((cur ++ [line]) ++ t).drop cur.length = line :: t := by
          rw [List.append_assoc, List.drop_left]
          rfl
        have hdrop2 : ((cur ++ [line]) ++ t).drop ((cur ++ [line]).length) = t :=
          List.drop_left _ _
        rw [hdrop1]
        rw [hdrop2] at hih
        rw [List.cons_append]
        congr 1
      exact key _

/-- Every chunk after the first begins with the last `min 5 (lines)` lines of
its predecessor. -/
theorem chunkLoop_chain (maxChars : Nat) :
    ∀ (lines : List Str) (cur : List Str) (size : Nat),
      List.Chain' SeededWithOverlap (chunkLoop maxChars lines cur size) := by
  intro lines
  induction lines with
  | nil =>
    intro cur size
    simp only [chunkLoop]
    split <;> simp
  | cons line rest ih =>
    intro cur size
    simp only [chunkLoop]
    split
    · rename_i hcond
      set ov := cur.drop (cur.length - min 5 cur.length) with hov
      have hovlen : ov.length = min 5 cur.length := by
        rw [hov, List.length_drop]
        omega
      have key : ∀ S : Nat,
          List.Chain' SeededWithOverlap
            (cur :: chunkLoop maxChars rest (ov ++ [line]) S) := by
        intro S
        obtain ⟨t, cs, heq⟩ :=
          chunkLoop_head maxChars rest (ov ++ [line]) S (Or.inl (by simp))
        rw [heq, List.chain'_cons]
        constructor
        · show ((ov ++ [line]) ++ t).take (min 5 cur.length) = ov
          rw [List.append_assoc, ← hovlen, List.take_left]
        · rw [← heq]
          exact ih _ _
      exact key _
    · exact ih _ _

/-! ### Properties of deduplication and validation -/

theorem dedupAux_sublist : ∀ (citations : List Citation) (seen : List Str),
    (dedupAux seen citations).Sublist citations := by
  intro citations
  induction citations with
  | nil => intro seen; simp [dedupAux]
  | cons c rest ih =>
    intro seen
    simp only [dedupAux]
    split
    · exact (ih seen).trans (List.sublist_cons_self c rest)
    · exact (ih (normalize c.title :: seen)).cons₂ c

theorem dedupAux_spec : ∀ (citations : List Citation) (seen : List Str),
    (∀ x ∈ dedupAux seen citations, normalize x.title ∉ seen) ∧
      (dedupAux seen citations).Pairwise
        (fun a b => normalize a.title ≠ normalize b.title) := by
  intro citations
  induction citations with
  | nil => intro seen; simp [dedupAux]
  | cons c rest ih =>
    intro seen
    simp only [dedupAux]
    split
    · exact ih seen
    · rename_i hc
      push_neg at hc
      obtain ⟨ihmem, ihpair⟩ := ih (normalize c.title :: seen)
      constructor
      · intro x hx
        rcases List.mem_cons.mp hx with rfl | hx'
        · exact hc.2
        · intro hmem
          exact ihmem x hx' (List.mem_cons_of_mem _ hmem)
      · rw [List.pairwise_cons]
        refine ⟨?_, ihpair⟩
        intro x hx heq
        exact ihmem x hx (heq ▸ List.mem_cons_self _ _)

theorem parseCitations_fail :
    ∀ (pre : List RawCitation) (e : RawCitation) (post : List RawCitation),
      e.title = none ∨ e.title = some [] →
      parseCitations (pre ++ e :: post) = none := by
  intro pre
  induction pre with
  | nil =>
    intro e post he
    have hent : parseCitationEntry e = none := by
      rcases he with h | h <;> simp [parseCitationEntry, h]
    simp [parseCitations, hent]
  | cons x pre' ih =>
    intro e post he
    simp only [List.cons_append, parseCitations, List.append_eq]
    rw [ih e post he]
    cases parseCitationEntry x <;> rfl

theorem parseCitations_length :
    ∀ (entries : List RawCitation) (cs : List Citation),
      parseCitations entries = some cs → cs.length = entries.length := by
  intro entries
  induction entries with
  | nil =>
    intro cs h
    simp only [parseCitations, Option.some.injEq] at h
    subst h
    rfl
  | cons e rest ih =>
    intro cs h
    simp only [parseCitations] at h
    cases he : parseCitationEntry e with
    | none => rw [he] at h; exact absurd h (by simp)
    | some c =>
      rw [he] at h
      cases hr : parseCitations rest with
      | none => rw [hr] at h; exact absurd h (by simp)
      | some cs' =>
        rw [hr] at h
        simp only [Option.some.injEq] at h
        subst h
        simp only [List.length_cons]
        rw [ih cs' hr]

/-! ## The claims -/

/-- C2: for every input list and every (positive) worker concurrency, the
worker pool's output has the input's length and its element at index `i` is
the result computed for the citation at index `i`, whatever the order in
which the workers complete (modelled as any permutation of the indices). -/
theorem claim2_output_order {α β : Type} (items : List α) (concurrency : Nat)
    (fn : Nat → α → β) (order : List Nat)
    (hc : 0 < concurrency) (horder : order.Perm (List.range items.length)) :
    mapWithConcurrency items concurrency fn order =
      items.mapIdx (fun i x => some (fn i x)) ∧
    (mapWithConcurrency items concurrency fn order).length = items.length := by
  have h := mapWithConcurrency_eq_mapIdx items concurrency fn order hc horder
  exact ⟨h, by rw [h, List.length_mapIdx]⟩

theorem claim2_output_order_witness :
    mapWithConcurrency [10, 20] 2 (fun i x => x + i) [1, 0] =
      [10, 20].mapIdx (fun i x => some (x + i)) ∧
    (mapWithConcurrency [10, 20] 2 (fun i x => x + i) [1, 0]).length = 2 :=
  claim2_output_order [10, 20] 2 (fun i x => x + i) [1, 0]
    (by decide) (by decide)

/-- C3: the similarity ratio is always in `[0, 1]`, the weighted per-source
score is always in `[0, 1]`, and consequently every verification result's
final score is in `[0, 1]`. -/
theorem claim3_scores_unit_interval :
    (∀ a b : Str, 0 ≤ sequenceMatcherRatio a b ∧ sequenceMatcherRatio a b ≤ 1) ∧
    (∀ (rt : Option Str) (ra : List Str) (ft : Option Str) (fa : List Str),
      0 ≤ scoreMatchFields rt ra ft fa ∧ scoreMatchFields rt ra ft fa ≤ 1) ∧
    (∀ (c : Citation) (ms : ℚ) (ss : Option SemanticScholarItem)
        (ax : Option ArxivFields),
      0 ≤ (verifyCitation c ms ss ax).score ∧
        (verifyCitation c ms ss ax).score ≤ 1) := by
  refine ⟨sequenceMatcherRatio_mem, scoreMatchFields_mem, ?_⟩
  intro c ms ss ax
  have hscore : (verifyCitation c ms ss ax).score =
      max
        (if ss.isSome then
          scoreMatchFields (some c.title) c.authors
            (extractSemanticScholarFields ss).title
            (extractSemanticScholarFields ss).authors
        else 0)
        (match ax with
          | some axf => scoreMatchFields (some c.title) c.authors axf.title axf.authors
          | none => 0) := rfl
  have hA : 0 ≤ (if ss.isSome then
        scoreMatchFields (some c.title) c.authors
          (extractSemanticScholarFields ss).title
          (extractSemanticScholarFields ss).authors
      else (0 : ℚ)) ∧
      (if ss.isSome then
        scoreMatchFields (some c.title) c.authors
          (extractSemanticScholarFields ss).title
          (extractSemanticScholarFields ss).authors
      else (0 : ℚ)) ≤ 1 := by
    cases ss with
    | none => norm_num
    | some it => simpa using scoreMatchFields_mem _ _ _ _
  have hB : 0 ≤ (match ax with
        | some axf => scoreMatchFields (some c.title) c.authors axf.title axf.authors
        | none => (0 : ℚ)) ∧
      (match ax with
        | some axf => scoreMatchFields (some c.title) c.authors axf.title axf.authors
        | none => (0 : ℚ)) ≤ 1 := by
    cases ax with
    | none => norm_num
    | some axf => exact scoreMatchFields_mem _ _ _ _
  rw [hscore]
  exact ⟨le_max_of_le_left hA.1, max_le hA.2 hB.2⟩

/-- C4 counterexample: with `minScore = 0` (an accepted configuration value),
a citation whose two lookups both fail gets score 0 and no source URL but is
marked `verified`, not `unverified`, because `0 ≥ 0`. -/
theorem claim4_counterexample_minscore_zero :
    (verifyCitation ⟨"x".data, []⟩ 0 none none).score = 0 ∧
    (verifyCitation ⟨"x".data, []⟩ 0 none none).status =
      VerificationStatus.verified ∧
    (verifyCitation ⟨"x".data, []⟩ 0 none none).sourceUrl = none := by
  decide

/-- C4 as amended: when both lookups fail, the citation's result has score 0
and no source URL, and — provided `minScore` is positive — status
`unverified`; the model is a total function, so the run always gets a result
for the citation. -/
theorem claim4_lookup_failure_degrades (c : Citation) (minScore : ℚ)
    (h : 0 < minScore) :
    (verifyCitation c minScore none none).score = 0 ∧
    (verifyCitation c minScore none none).status =
      VerificationStatus.unverified ∧
    (verifyCitation c minScore none none).sourceUrl = none := by
  have hscore : (verifyCitation c minScore none none).score = 0 := by
    show max (if (none : Option SemanticScholarItem).isSome then _ else 0) _ = 0
    norm_num
  refine ⟨hscore, ?_, ?_⟩
  · show (if minScore ≤ max (0 : ℚ) 0 then VerificationStatus.verified
      else VerificationStatus.unverified) = VerificationStatus.unverified
    rw [if_neg (by simpa using not_le_of_lt h)]
  · show (if (if minScore ≤ max (0 : ℚ) 0 then VerificationStatus.verified
        else VerificationStatus.unverified) = VerificationStatus.verified
      then _ else none) = none
    rw [if_neg (by simpa using not_le_of_lt h)]

theorem claim4_lookup_failure_degrades_witness :
    (0 : ℚ) < 1/2 ∧
    ((verifyCitation ⟨"x".data, []⟩ (1/2) none none).score = 0 ∧
     (verifyCitation ⟨"x".data, []⟩ (1/2) none none).status =
       VerificationStatus.unverified ∧
     (verifyCitation ⟨"x".data, []⟩ (1/2) none none).sourceUrl = none) :=
  ⟨by norm_num, claim4_lookup_failure_degrades ⟨"x".data, []⟩ (1/2) (by norm_num)⟩

/-- C5: citations are deduplicated by normalized title keeping the first
occurrence: on titles `"A Study"`, `"a study"`, `"B Study"` exactly the first
and third survive; in general the output is a subsequence of the input with
pairwise distinct normalized titles. -/
theorem claim5_dedup_first_occurrence :
    deduplicateCitations
        [⟨"A Study".data, []⟩, ⟨"a study".data, []⟩, ⟨"B Study".data, []⟩] =
      [⟨"A Study".data, []⟩, ⟨"B Study".data, []⟩] ∧
    (∀ citations : List Citation,
      (deduplicateCitations citations).Sublist citations) ∧
    (∀ citations : List Citation,
      (deduplicateCitations citations).Pairwise
        (fun a b => normalize a.title ≠ normalize b.title)) := by
  refine ⟨by decide, ?_, ?_⟩
  · intro citations
    exact dedupAux_sublist citations []
  · intro citations
    exact (dedupAux_spec citations []).2

/-- C6 counterexample: a supplied `min_score` above 1 is rejected (the request
fails with a 400), not clamped into `[0, 1]` — the pipeline does not proceed. -/
theorem claim6_counterexample_out_of_range_rejected :
    (1 : ℚ) < 3/2 ∧ resolveMinScore (some (3/2)) = none := by
  constructor
  · norm_num
  · simp only [resolveMinScore]
    norm_num

/-- C6 as amended: `minScore` defaults to 0.5 when absent; whenever the
pipeline proceeds the effective value lies in `[0, 1]`; a supplied value
outside `[0, 1]` is rejected with an error rather than clamped. -/
theorem claim6_minscore_default_and_range :
    resolveMinScore none = some (1/2) ∧
    (∀ (raw : Option ℚ) (ms : ℚ), resolveMinScore raw = some ms →
      0 ≤ ms ∧ ms ≤ 1) ∧
    (∀ q : ℚ, q < 0 ∨ 1 < q → resolveMinScore (some q) = none) := by
  refine ⟨?_, ?_, ?_⟩
  · simp only [resolveMinScore]; norm_num
  · intro raw ms h
    simp only [resolveMinScore] at h
    by_cases hcond : (match raw with | some q => q | none => (0.5 : ℚ)) < 0 ∨
        1 < (match raw with | some q => q | none => (0.5 : ℚ))
    · rw [if_pos hcond] at h
      exact absurd h (by simp)
    · rw [if_neg hcond] at h
      push_neg at hcond
      have hms := Option.some.inj h
      rw [← hms]
      exact ⟨hcond.1, hcond.2⟩
  · intro q hq
    simp only [resolveMinScore]
    exact if_pos hq

theorem claim6_minscore_default_and_range_witness :
    ((2 : ℚ) < 0 ∨ (1 : ℚ) < 2) ∧ resolveMinScore (some 2) = none :=
  ⟨Or.inr (by norm_num),
    claim6_minscore_default_and_range.2.2 2 (Or.inr (by norm_num))⟩

/-- C7 counterexample: an extraction output containing one entry with an
empty title and one valid entry fails validation as a whole (`none`); the
invalid entry is not dropped and the valid one is not kept. -/
theorem claim7_counterexample_invalid_entry_fails_parse :
    parseCitations [⟨some [], none⟩, ⟨some "ok".data, none⟩] = none ∧
    parseCitations [⟨some [], none⟩, ⟨some "ok".data, none⟩] ≠
      some [⟨"ok".data, []⟩] := by
  decide

/-- C7 as amended: an entry lacking a non-empty title makes the validation of
the whole extraction output fail (the run errors out) rather than being
dropped; an entry with a missing `authors` field is kept with `authors`
defaulted to the empty list, and a successful validation keeps every entry. -/
theorem claim7_validation :
    (∀ (pre : List RawCitation) (e : RawCitation) (post : List RawCitation),
      e.title = none ∨ e.title = some [] →
      parseCitations (pre ++ e :: post) = none) ∧
    (∀ (t : Str) (authors : Option (List Str)), t ≠ [] →
      parseCitationEntry ⟨some t, authors⟩ = some ⟨t, authors.getD []⟩) ∧
    (∀ (entries : List RawCitation) (cs : List Citation),
      parseCitations entries = some cs → cs.length = entries.length) := by
  refine ⟨parseCitations_fail, ?_, parseCitations_length⟩
  intro t authors ht
  rw [parseCitationEntry]
  simp only
  rw [if_pos (by have := List.length_pos.mpr ht; omega)]

theorem claim7_validation_witness :
    ((⟨none, none⟩ : RawCitation).title = none ∨
      (⟨none, none⟩ : RawCitation).title = some []) ∧
    parseCitations [⟨some "a".data, none⟩, ⟨none, none⟩] = none :=
  ⟨Or.inl rfl,
    claim7_validation.1 [⟨some "a".data, none⟩] ⟨none, none⟩ [] (Or.inl rfl)⟩

/-- C9 counterexample: the similarity scorer is not symmetric; on `"aba"` and
`"babba"` the two orders give 3/4 and 1/2 (the tie-breaking of the
longest-common-substring search is position-dependent). -/
theorem claim9_counterexample_asymmetric :
    sequenceMatcherRatio "aba".data "babba".data = 3/4 ∧
    sequenceMatcherRatio "babba".data "aba".data = 1/2 ∧
    sequenceMatcherRatio "aba".data "babba".data ≠
      sequenceMatcherRatio "babba".data "aba".data := by
  have h1 : lcsSum "aba".data "babba".data = 3 := by decide
  have h2 : lcsSum "babba".data "aba".data = 2 := by decide
  have e1 : sequenceMatcherRatio "aba".data "babba".data = 3/4 := by
    rw [sequenceMatcherRatio]
    norm_num [h1]
  have e2 : sequenceMatcherRatio "babba".data "aba".data = 1/2 := by
    rw [sequenceMatcherRatio]
    norm_num [h2]
  refine ⟨e1, e2, ?_⟩
  rw [e1, e2]
  norm_num

/-- C9 as amended: the scorer is a pure function and is symmetric whenever
either input is empty (ratio 1 for two empty strings, 0 when exactly one is
empty), but not symmetric in general. -/
theorem claim9_symmetry_on_empty (a b : Str) (h : a = [] ∨ b = []) :
    sequenceMatcherRatio a b = sequenceMatcherRatio b a := by
  rcases h with rfl | rfl
  · by_cases hb : b.length = 0
    · simp [sequenceMatcherRatio, hb]
    · simp [sequenceMatcherRatio, hb]
  · by_cases ha : a.length = 0
    · simp [sequenceMatcherRatio, ha]
    · simp [sequenceMatcherRatio, ha]

theorem claim9_symmetry_on_empty_witness :
    sequenceMatcherRatio [] "x".data = sequenceMatcherRatio "x".data [] :=
  claim9_symmetry_on_empty [] "x".data (Or.inl rfl)

theorem ratio_x_x : sequenceMatcherRatio (normalize "x".data) (normalize "x".data) = 1 := by
  have hn : normalize "x".data = "x".data := by decide
  have h : lcsSum "x".data "x".data = 1 := by decide
  rw [hn, sequenceMatcherRatio]
  norm_num [h]

/-- C1 counterexample: with citation authors `["."]` and found authors `["."]`
(and equal titles `"x"`), the code scores `0.8` — the author `"."` normalizes
to the empty string and is discarded — while the specification's formula
(`|normalized ∩ normalized| / |normalized|`, both sets being `{""}`) yields
an author overlap of 1 and a total of `1.0`. -/
theorem claim1_counterexample_empty_normalized_author :
    scoreMatchFields (some "x".data) [".".data] (some "x".data) [".".data] = 4/5 ∧
    specPerSourceScore (some "x".data) [".".data] (some "x".data) [".".data] = 1 ∧
    scoreMatchFields (some "x".data) [".".data] (some "x".data) [".".data] ≠
      specPerSourceScore (some "x".data) [".".data] (some "x".data) [".".data] := by
  have hcard :
      ¬(((([".".data].map normalize).filter (fun s => !s.isEmpty)).toFinset).card ≠ 0) := by
    decide
  have e1 : scoreMatchFields (some "x".data) [".".data] (some "x".data) [".".data]
      = 4/5 := by
    rw [scoreMatchFields]
    dsimp only
    rw [if_pos ⟨by decide, by decide⟩, if_pos ⟨by decide, by decide⟩,
      if_neg hcard, ratio_x_x]
    norm_num
  have hco : (([".".data].map normalize).toFinset ∩
      ([".".data].map normalize).toFinset).card = 1 := by decide
  have hcr : ([".".data].map normalize).toFinset.card = 1 := by decide
  have e2 : specPerSourceScore (some "x".data) [".".data] (some "x".data) [".".data]
      = 1 := by
    rw [specPerSourceScore, specTitleSimilarity, specAuthorOverlap]
    dsimp only
    rw [if_pos ⟨by decide, by decide⟩, if_neg (by decide), ratio_x_x, hco, hcr]
    norm_num
  refine ⟨e1, e2, ?_⟩
  rw [e1, e2]
  norm_num

/-- C1 as amended: the per-source score is `titleSimilarity × 0.8 +
authorOverlap × 0.2` where the author overlap counts only authors whose
normalized form is non-empty (and is 0 when either author list is empty or no
citation author survives normalization); the final score is the maximum of
the two per-source scores, and the status is `verified` iff the final score
reaches `minScore`. -/
theorem claim1_per_source_scoring (c : Citation) (ms : ℚ)
    (ss : Option SemanticScholarItem) (ax : Option ArxivFields) :
    (verifyCitation c ms ss ax).score =
      max
        (match ss with
          | some _ =>
            specPerSourceScoreKept (some c.title) c.authors
              (extractSemanticScholarFields ss).title
              (extractSemanticScholarFields ss).authors
          | none => 0)
        (match ax with
          | some axf =>
            specPerSourceScoreKept (some c.title) c.authors axf.title axf.authors
          | none => 0) ∧
    ((verifyCitation c ms ss ax).status = VerificationStatus.verified ↔
      ms ≤ (verifyCitation c ms ss ax).score) := by
  constructor
  · have hscore : (verifyCitation c ms ss ax).score =
        max
          (if ss.isSome then
            scoreMatchFields (some c.title) c.authors
              (extractSemanticScholarFields ss).title
              (extractSemanticScholarFields ss).authors
          else 0)
          (match ax with
            | some axf =>
              scoreMatchFields (some c.title) c.authors axf.title axf.authors
            | none => 0) := rfl
    rw [hscore]
    congr 1
    · cases ss with
      | none => simp
      | some it => simp [scoreMatchFields_eq_kept]
    · cases ax with
      | none => rfl
      | some axf => exact scoreMatchFields_eq_kept _ _ _ _
  · have hstatus : (verifyCitation c ms ss ax).status =
        (if ms ≤ (verifyCitation c ms ss ax).score then VerificationStatus.verified
          else VerificationStatus.unverified) := rfl
    rw [hstatus]
    by_cases hle : ms ≤ (verifyCitation c ms ss ax).score
    · simp [hle]
    · simp [hle]

theorem scoreMatchFields_x_noauthors :
    scoreMatchFields (some "x".data) [] (some "x".data) [] = 4/5 := by
  rw [scoreMatchFields]
  dsimp only
  rw [if_pos ⟨by decide, by decide⟩, if_neg (by simp), ratio_x_x]
  norm_num

/-- C8 counterexample: a verified citation where both sources score `0.8` (a
tie) but the Semantic Scholar item carries no `paperId`: the source URL is
taken from arXiv, so the tie is not resolved in favour of Source A. -/
theorem claim8_counterexample_missing_paper_id :
    (verifyCitation ⟨"x".data, []⟩ (1/2)
        (some ⟨some "x".data, some [], none⟩)
        (some ⟨some "x".data, [], some "1".data⟩)).status =
      VerificationStatus.verified ∧
    (verifyCitation ⟨"x".data, []⟩ (1/2)
        (some ⟨some "x".data, some [], none⟩)
        (some ⟨some "x".data, [], some "1".data⟩)).semantic_scholar =
      some ⟨some "x".data, [], 4/5⟩ ∧
    (verifyCitation ⟨"x".data, []⟩ (1/2)
        (some ⟨some "x".data, some [], none⟩)
        (some ⟨some "x".data, [], some "1".data⟩)).arxiv =
      some ⟨some "x".data, [], 4/5⟩ ∧
    (verifyCitation ⟨"x".data, []⟩ (1/2)
        (some ⟨some "x".data, some [], none⟩)
        (some ⟨some "x".data, [], some "1".data⟩)).sourceUrl =
      some (arxivAbsUrl "1".data) := by
  have hext : extractSemanticScholarFields (some ⟨some "x".data, some [], none⟩)
      = ⟨some "x".data, [], none⟩ := by decide
  have hsf := scoreMatchFields_x_noauthors
  refine ⟨?_, ?_, ?_, ?_⟩
  · simp only [verifyCitation, hext, Option.isSome_some, if_true]
    rw [hsf]
    rw [if_pos (by norm_num)]
  · simp only [verifyCitation, hext, Option.isSome_some, if_true]
    rw [hsf]
  · simp only [verifyCitation, hext, Option.isSome_some, if_true]
    rw [hsf]
  · simp only [verifyCitation, hext, Option.isSome_some, if_true]
    rw [hsf]
    rw [if_pos (by norm_num)]
    simp [arxivUrlOf]

/-- C8 as amended: an unverified citation has no source URL; a verified
citation takes its URL from Source A when Source A's score is at least
Source B's and its item carries a (non-empty) paper id — so genuine ties go
to Source A only then — and otherwise falls back to the arXiv id when that is
present and non-empty, else has no URL. -/
theorem claim8_source_url (c : Citation) (ms : ℚ)
    (ss : Option SemanticScholarItem) (ax : Option ArxivFields) :
    ((verifyCitation c ms ss ax).status = VerificationStatus.unverified →
      (verifyCitation c ms ss ax).sourceUrl = none) ∧
    ((verifyCitation c ms ss ax).status = VerificationStatus.verified →
      (verifyCitation c ms ss ax).sourceUrl =
        match (extractSemanticScholarFields ss).paperId with
        | some pid =>
          if (match ax with
              | some axf =>
                scoreMatchFields (some c.title) c.authors axf.title axf.authors
              | none => 0) ≤
              (if ss.isSome then
                scoreMatchFields (some c.title) c.authors
                  (extractSemanticScholarFields ss).title
                  (extractSemanticScholarFields ss).authors
              else 0) ∧ pid ≠ []
          then some (semanticScholarPaperUrl pid)
          else arxivUrlOf ax
        | none => arxivUrlOf ax) := by
  have hurl : (verifyCitation c ms ss ax).sourceUrl =
      (if (verifyCitation c ms ss ax).status = VerificationStatus.verified then
        match (extractSemanticScholarFields ss).paperId with
        | some pid =>
          if (match ax with
              | some axf =>
                scoreMatchFields (some c.title) c.authors axf.title axf.authors
              | none => 0) ≤
              (if ss.isSome then
                scoreMatchFields (some c.title) c.authors
                  (extractSemanticScholarFields ss).title
                  (extractSemanticScholarFields ss).authors
              else 0) ∧ pid ≠ []
          then some (semanticScholarPaperUrl pid)
          else arxivUrlOf ax
        | none => arxivUrlOf ax
      else none) := rfl
  constructor
  · intro h
    rw [hurl, h]
    simp
  · intro h
    rw [hurl, h]
    simp

theorem claim8_source_url_witness :
    (verifyCitation ⟨"x".data, []⟩ 1 none none).status =
      VerificationStatus.unverified ∧
    (verifyCitation ⟨"x".data, []⟩ 1 none none).sourceUrl = none :=
  ⟨by decide, (claim8_source_url ⟨"x".data, []⟩ 1 none none).1 (by decide)⟩

theorem splitLinesAux_rep_a : ∀ (n : Nat) (rest acc : Str),
    splitLinesAux (List.replicate n 'a' ++ rest) acc =
      splitLinesAux rest (List.replicate n 'a' ++ acc) := by
  intro n
  induction n with
  | zero => intro rest acc; simp
  | succ n ih =>
    intro rest acc
    rw [List.replicate_succ, List.cons_append]
    have hstep : ∀ (s acc' : Str), splitLinesAux ('a' :: s) acc' =
        splitLinesAux s ('a' :: acc') := fun s acc' => rfl
    rw [hstep, ih]
    congr 1
    rw [show ('a' :: acc : Str) = ['a'] ++ acc from rfl, ← List.append_assoc,
      ← List.replicate_succ', List.replicate_succ, List.cons_append]

theorem split_ce :
    splitLines (List.replicate 4001 'a' ++ ('\n' :: 'b' :: '\n' :: 'c' :: [])) =
      [List.replicate 4001 'a', ['b'], ['c']] := by
  rw [splitLines, splitLinesAux_rep_a]
  have h1 : splitLinesAux ('\n' :: 'b' :: '\n' :: 'c' :: [])
        (List.replicate 4001 'a' ++ []) =
      (List.replicate 4001 'a' ++ []).reverse ::
        splitLinesAux ('b' :: '\n' :: 'c' :: []) [] := rfl
  rw [h1]
  have h2 : splitLinesAux ('b' :: '\n' :: 'c' :: []) ([] : Str) = [['b'], ['c']] := by
    decide
  rw [h2, List.append_nil, List.reverse_replicate]

theorem chunk_ce :
    chunkLinesOf (List.replicate 4001 'a' ++ ('\n' :: 'b' :: '\n' :: 'c' :: [])) =
      [[List.replicate 4001 'a'], [List.replicate 4001 'a', ['b']],
       [List.replicate 4001 'a', ['b'], ['c']]] := by
  rw [chunkLinesOf, split_ce]
  set A : Str := List.replicate 4001 'a' with hAdef
  have hA : A.length = 4001 := by rw [hAdef, List.length_replicate]
  have hmax : MAX_INPUT_CHARS = 4000 := rfl
  rw [hmax]
  rw [chunkLoop, if_neg (fun h => by simp only [List.length_nil] at h; omega)]
  simp only [List.nil_append, hA, Nat.zero_add]
  norm_num
  rw [chunkLoop, if_pos ⟨by simp only [List.length_cons, List.length_nil]; omega,
    by simp only [List.length_cons, List.length_nil]; omega⟩]
  norm_num [hA]
  rw [chunkLoop, if_pos ⟨by simp only [List.length_cons, List.length_nil]; omega,
    by simp only [List.length_cons, List.length_nil]; omega⟩]
  norm_num [hA]
  rw [chunkLoop, if_pos (by simp only [List.length_cons, List.length_nil]; omega)]

/-- C10 counterexample: an oversized reference section whose first line alone
exceeds the maximum produces the chunks `[[A], [A, b], [A, b, c]]` (A being
the 4001-character line): the second chunk's first line is the last **1**
line of the first chunk, not its last 5 lines, so the literal reading of the
claim — every subsequent chunk begins with the last 5 lines of its
predecessor, and dropping 5-line overlaps reconstructs the input — fails. -/
theorem claim10_counterexample_short_chunk_overlap :
    MAX_INPUT_CHARS <
      (List.replicate 4001 'a' ++ ('\n' :: 'b' :: '\n' :: 'c' :: [])).length ∧
    ¬(List.Chain' SeededWith5
        (chunkLinesOf
          (List.replicate 4001 'a' ++ ('\n' :: 'b' :: '\n' :: 'c' :: []))) ∧
      removeOverlaps5
          (chunkLinesOf
            (List.replicate 4001 'a' ++ ('\n' :: 'b' :: '\n' :: 'c' :: []))) =
        splitLines
          (List.replicate 4001 'a' ++ ('\n' :: 'b' :: '\n' :: 'c' :: []))) := by
  constructor
  · have hmax : MAX_INPUT_CHARS = 4000 := rfl
    rw [hmax, List.length_append, List.length_replicate]
    simp only [List.length_cons, List.length_nil]
    omega
  · rw [chunk_ce]
    rintro ⟨hch, _⟩
    have hrel := (List.chain'_cons.mp hch).1
    rw [SeededWith5] at hrel
    have hlen := congrArg List.length hrel
    rw [List.length_take, List.length_drop] at hlen
    simp only [List.length_cons, List.length_nil] at hlen
    omega

/-- C10 as amended: a reference section at or under `MAX_INPUT_CHARS` is
returned as exactly one chunk identical to the input; for an oversized
section every chunk after the first begins with the last `min 5 (number of
lines)` lines of its predecessor, and concatenating the chunks minus those
actual seeded overlaps reproduces the original line sequence. -/
theorem claim10_chunking :
    (∀ text : Str, text.length ≤ MAX_INPUT_CHARS →
      chunkReferencesSection text = [text]) ∧
    (∀ text : Str, MAX_INPUT_CHARS < text.length →
      chunkReferencesSection text = (chunkLinesOf text).map joinLines ∧
      removeOverlaps (chunkLinesOf text) = splitLines text ∧
      List.Chain' SeededWithOverlap (chunkLinesOf text)) := by
  constructor
  · intro text h
    rw [chunkReferencesSection, if_pos h]
  · intro text h
    refine ⟨?_, ?_, ?_⟩
    · rw [chunkReferencesSection, if_neg (by omega)]
      rfl
    · rw [removeOverlaps, chunkLinesOf]
      exact chunkLoop_strip MAX_INPUT_CHARS (splitLines text) [] 0
    · exact chunkLoop_chain MAX_INPUT_CHARS (splitLines text) [] 0

theorem claim10_chunking_witness :
    "hi".data.length ≤ MAX_INPUT_CHARS ∧
    chunkReferencesSection "hi".data = ["hi".data] :=
  ⟨by decide, claim10_chunking.1 "hi".data (by decide)⟩

end CiteCheck
